import Mathlib

/-
Verification development for the fast-agent core: configuration precedence
(`MCPAgentDecorator._get_model_factory`, `Settings.default_model`), the parallel
dependency resolver (`_get_parallel_dependencies`, `_create_parallel_agents`),
composite workflow builders (`_create_orchestrators`,
`_create_evaluator_optimizers`), the application lifecycle (the initialize ,
cleanup and run methods of MCPApp), task registration (`MCPApp.workflow_task`) and
the prompt message multipart conversions
(`PromptMessageMultipart.to_multipart` / `from_multipart`,
`load_prompt_multipart`).
-/

set_option maxHeartbeats 1000000

deriving instance DecidableEq for Except

namespace FastAgent

/-! ## Parameter resolution (`decorator_app.py`, `config.py`) -/

/-- Python truthiness of an optional string: `None` and the empty string are falsy.
Models the checks `if self.args.model:` and `if model:` in `_get_model_factory`. -/
def pyTruthy : Option String → Bool
  | none => false
  | some s => s != ""

/-- Field `Settings.default_model` (config.py): the pydantic field takes the value the
loaded config file supplies when the file sets the field, and the baseline default
`"haiku"` otherwise. `fileConfig = none` means the file does not set the field;
`some v` means the file sets it to `v` (which may itself be null). -/
def settingsDefaultModel (fileConfig : Option (Option String)) : Option String :=
  match fileConfig with
  | some v => v
  | none => some "haiku"

/-- Minimal model of `RequestParams` (the class itself lives outside this repository);
only the fields this repository reads or writes are modelled. -/
structure RequestParams where
  model : Option String := none
  use_history : Bool := true
  maxTokens : Nat := 2048
deriving DecidableEq, Repr

/-- Mutable state `_get_model_factory` reads: the application config default model
(`self.context.config.default_model`) and the parsed command line override
(`self.args.model`). The embedding threads this state explicitly so that mutation,
or its absence, is visible in the result type. -/
structure ResolverEnv where
  configDefaultModel : Option String
  argsModel : Option String
deriving DecidableEq, Repr

/-- Precedence scan of `_get_model_factory`: start from the config default, replace it
with the command line override when that is truthy, then with the call site (decorator)
model when that is truthy. -/
def modelSpecOf (env : ResolverEnv) (model : Option String) : Option String :=
  let spec := env.configDefaultModel
  let spec := if pyTruthy env.argsModel then env.argsModel else spec
  let spec := if pyTruthy model then model else spec
  spec

/-- Arguments handed to `ModelFactory.create_factory` at the end of
`_get_model_factory` (the factory itself is an external collaborator). -/
structure FactoryCall where
  modelSpec : Option String
  requestParams : RequestParams
deriving DecidableEq, Repr

/-- Body of `_get_model_factory`: compute the final model spec, then either copy the
given request params with the model updated (`request_params.model_copy(update=...)`)
or build fresh ones (`RequestParams(model=model_spec)`). Returns the factory call
together with the environment after the call. -/
def getModelFactory (env : ResolverEnv) (model : Option String)
    (requestParams : Option RequestParams) : FactoryCall × ResolverEnv :=
  let spec := modelSpecOf env model
  let rp : RequestParams :=
    match requestParams with
    | some p => { p with model := spec }
    | none => { model := spec }
  (⟨spec, rp⟩, env)

/-- Effective model of a node through all four tiers: the config file value is merged
into `Settings.default_model`, then `_get_model_factory` applies the command line
override and the call site model on top. -/
def resolveNodeModel (fileConfig : Option (Option String)) (cliOverride : Option String)
    (callSite : Option String) : Option String :=
  modelSpecOf ⟨settingsDefaultModel fileConfig, cliOverride⟩ callSite

/-! ## Prompt messages (`prompt_message_multipart.py`, `prompt_load.py`) -/

/-- Role literal of `mcp.types.Role`. -/
inductive Role where
  | user
  | assistant
deriving DecidableEq, Repr

/-- Content union `TextContent | ImageContent | EmbeddedResource`; payloads are
abstracted to identity-relevant data. -/
inductive MessageContent where
  | text (s : String)
  | image (data : String)
  | resource (uri : String)
deriving DecidableEq, Repr

/-- Model of `mcp.types.PromptMessage`. -/
structure PromptMessage where
  role : Role
  content : MessageContent
deriving DecidableEq, Repr

/-- Model of class `PromptMessageMultipart`: a role and several content parts. -/
structure PromptMessageMultipart where
  role : Role
  content : List MessageContent
deriving DecidableEq, Repr

namespace PromptMessageMultipart

/-- One iteration of the grouping loop in `to_multipart`. The loop state is the result
list built so far together with the current group. The Python variable `current_role`
always equals the role of the current group once a group exists (both start as `None`
and are always updated together), so it is not duplicated here. -/
def toMultipartStep (st : List PromptMessageMultipart × Option PromptMessageMultipart)
    (msg : PromptMessage) : List PromptMessageMultipart × Option PromptMessageMultipart :=
  match st.2 with
  | none => (st.1, some ⟨msg.role, [msg.content]⟩)
  | some g =>
    if msg.role ≠ g.role then (st.1 ++ [g], some ⟨msg.role, [msg.content]⟩)
    else (st.1, some ⟨g.role, g.content ++ [msg.content]⟩)

/-- Final step of `to_multipart`: append the trailing group to the result, if any. -/
def finishGroups (st : List PromptMessageMultipart × Option PromptMessageMultipart) :
    List PromptMessageMultipart :=
  match st.2 with
  | some g => st.1 ++ [g]
  | none => st.1

/-- Classmethod `PromptMessageMultipart.to_multipart`: group consecutive messages of
equal role, then append the trailing group. -/
def to_multipart (messages : List PromptMessage) : List PromptMessageMultipart :=
  match messages with
  | [] => []
  | _ => finishGroups (messages.foldl toMultipartStep ([], none))

/-- Method `PromptMessageMultipart.from_multipart`: one `PromptMessage` per content
part, all with this message role. -/
def from_multipart (m : PromptMessageMultipart) : List PromptMessage :=
  m.content.map (fun c => ⟨m.role, c⟩)

end PromptMessageMultipart

/-- Concatenation of `from_multipart` over a list of multipart messages, in order. -/
def flattenMultipart (ms : List PromptMessageMultipart) : List PromptMessage :=
  ms.foldr (fun m acc => m.from_multipart ++ acc) []

/-- Attribute names the class body of `PromptMessageMultipart` defines: its two pydantic
fields and its three methods. There is no `flatten` attribute, and the pydantic
`BaseModel` base class defines none either. -/
def pmmClassAttrs : List String :=
  ["role", "content", "to_multipart", "from_multipart", "parse_get_prompt_result"]

inductive PromptLoadError where
  | attributeError (attr : String)
  | loadError (msg : String)
deriving DecidableEq, Repr

/-- Function `load_prompt_multipart` evaluates
`PromptMessageMultipart.flatten(load_prompt(file))`. Python resolves the attribute
`flatten` on the class before the call, so the outcome of `load_prompt file` is taken
here as a parameter ranging over every possible input file (including files whose
loading would itself fail); the attribute lookup consults the class attribute table. -/
def load_prompt_multipart (loadPromptResult : Except String (List PromptMessage)) :
    Except PromptLoadError (List PromptMessageMultipart) :=
  if "flatten" ∈ pmmClassAttrs then
    match loadPromptResult with
    | .ok msgs => .ok (PromptMessageMultipart.to_multipart msgs)
    | .error e => .error (.loadError e)
  else .error (.attributeError "flatten")

/-! ## Node registry and dependency resolution (`decorator_app.py`) -/

/-- Enumeration `AgentType`. -/
inductive AgentKind where
  | basic
  | orchestrator
  | parallel
  | evaluatorOptimizer
deriving DecidableEq, Repr

/-- The per-name record stored in `MCPAgentDecorator.agents` — the parts of the stored
dictionary that the build phase reads. -/
structure AgentData where
  kind : AgentKind
  fanOut : List String := []
  fanIn : String := ""
  childAgents : List String := []
  optimizer : String := ""
  evaluator : String := ""
deriving DecidableEq, Repr

/-- The registry `self.agents`: an insertion-ordered mapping from name to declaration
(Python dict preserves insertion order; keys are unique). -/
abbrev Registry := List (String × AgentData)

/-- Dictionary lookup `self.agents[name]` / `name in self.agents`. -/
def lookupAgent (reg : Registry) (name : String) : Option AgentData :=
  match reg.find? (fun p => p.1 == name) with
  | some p => some p.2
  | none => none

/-- Whether `name` is registered as a parallel declaration. -/
def isParallelName (reg : Registry) (name : String) : Bool :=
  match lookupAgent reg name with
  | some a => a.kind == .parallel
  | none => false

/-- Fan-out references of `name`: the `fan_out` list of its declaration when that
declaration is a parallel one (only parallel declarations carry fan-out edges). -/
def fanOutOf (reg : Registry) (name : String) : List String :=
  match lookupAgent reg name with
  | some a => if a.kind == .parallel then a.fanOut else []
  | none => []

/-- Failure of the dependency walk. `cycle path name` models the
`ValueError("Circular dependency detected: ...")` raised when `name` is found on the
current recursion path: its message joins the members of the `path` set and appends
`name`, so the names carried by the error are `name :: path`. `noFuel` is the
exhaustion marker of the embedding recursion bound and is proved unreachable for the
bound used by the build phase. -/
inductive DepError where
  | cycle (path : List String) (name : String)
  | noFuel
deriving DecidableEq, Repr

mutual

/-- Method `MCPAgentDecorator._get_parallel_dependencies`. The Python sets `visited`
and `path` are modelled as lists consulted by membership; `visited` is mutated across
calls so it is threaded through the result; `path` receives `name` for the duration of
the fan-out loop. `fuel` bounds the recursion depth of the embedding; every recursive
call consumes one unit. -/
def getParallelDeps (reg : Registry) (fuel : Nat) (name : String)
    (visited path : List String) : Except DepError (List String × List String) :=
  match fuel with
  | 0 => .error .noFuel
  | fuel + 1 =>
    if name ∈ path then .error (.cycle path name)
    else if name ∈ visited then .ok ([], visited)
    else
      match lookupAgent reg name with
      | none => .ok ([], visited)
      | some a =>
        if a.kind == .parallel then
          match fanOutDeps reg fuel a.fanOut visited (name :: path) with
          | .error e => .error e
          | .ok (deps, vis) => .ok (deps ++ [name], name :: vis)
        else .ok ([], visited)

/-- The `for fan_out in config["fan_out"]` loop of `_get_parallel_dependencies`:
extends `deps` with the dependencies of each fan-out reference in order, threading the
`visited` set. -/
def fanOutDeps (reg : Registry) (fuel : Nat) (fos : List String)
    (visited path : List String) : Except DepError (List String × List String) :=
  match fuel with
  | 0 => .error .noFuel
  | fuel + 1 =>
    match fos with
    | [] => .ok ([], visited)
    | fo :: rest =>
      match getParallelDeps reg fuel fo visited path with
      | .error e => .error e
      | .ok (d1, v1) =>
        match fanOutDeps reg fuel rest v1 path with
        | .error e => .error e
        | .ok (d2, v2) => .ok (d1 ++ d2, v2)

end

/-- The `parallel_names` list comprehension of `_create_parallel_agents`: names of
parallel declarations in registry (insertion) order. -/
def parallelNamesOf (reg : Registry) : List String :=
  (reg.filter (fun p => p.2.kind == .parallel)).map (fun p => p.1)

/-- Main loop of `_create_parallel_agents`: for each parallel name not yet visited,
compute its ordered dependencies with a fresh `path`, threading the shared `visited`
set; the concatenation of the ordered lists is the order in which the parallel
workflows are then instantiated. -/
def buildParallelLoop (reg : Registry) (fuel : Nat) (names : List String)
    (visited : List String) : Except DepError (List String × List String) :=
  match names with
  | [] => .ok ([], visited)
  | n :: rest =>
    if n ∈ visited then buildParallelLoop reg fuel rest visited
    else
      match getParallelDeps reg fuel n visited [] with
      | .error e => .error e
      | .ok (d1, v1) =>
        match buildParallelLoop reg fuel rest v1 with
        | .error e => .error e
        | .ok (d2, v2) => .ok (d1 ++ d2, v2)

/-- Largest fan-out list length appearing in the registry. -/
def maxFanLen (reg : Registry) : Nat :=
  reg.foldr (fun p m => max p.2.fanOut.length m) 0

/-- A recursion bound that always suffices for the actual traversal: the recursion
nests at most one level per distinct parallel name, and between two levels the fan-out
loop takes at most `maxFanLen` steps. -/
def registryFuel (reg : Registry) : Nat :=
  (reg.length + 1) * (maxFanLen reg + 2) + 1

/-- Order in which `_create_parallel_agents` builds the parallel workflows. -/
def createParallelOrder (reg : Registry) : Except DepError (List String) :=
  match buildParallelLoop reg (registryFuel reg) (parallelNamesOf reg) [] with
  | .error e => .error e
  | .ok (d, _) => .ok d

/-- Dependency order computed from a single requested root with fresh traversal state:
`_get_parallel_dependencies(root, set(), set())`. -/
def orderFrom (reg : Registry) (root : String) :
    Except DepError (List String × List String) :=
  getParallelDeps reg (registryFuel reg) root [] []

/-- A cycle through fan-out references: `c → r₁ → ... → rₖ → c` where every node is a
registered parallel declaration and every step is a fan-out reference. `rest = []` is
the self-loop `c → c`. -/
def FanoutCycle (reg : Registry) (c : String) (rest : List String) : Prop :=
  isParallelName reg c = true ∧ (∀ n ∈ rest, isParallelName reg n = true) ∧
    List.Chain (fun a b => b ∈ fanOutOf reg a) c (rest ++ [c])

/-! ## Composite builders (`_create_orchestrators`, `_create_evaluator_optimizers`) -/

/-- Failure of a composite build step. `keyError missing` models the uncaught Python
`KeyError` raised by the subscript `active_agents[agent_name]`; `valueError` models the
deliberate `ValueError("Missing agents for workflow ...")` raise, whose message names
the workflow together with its optimizer and evaluator references. -/
inductive BuildError where
  | keyError (missing : String)
  | valueError (workflow optimizerRef evaluatorRef : String)
deriving DecidableEq, Repr

/-- Whether a build failure is the deliberate configuration-style `ValueError` raise
(as opposed to an uncaught `KeyError` crash). -/
def BuildError.isValueError : BuildError → Bool
  | .valueError _ _ _ => true
  | .keyError _ => false

/-- First child name whose lookup in `active_agents` raises: the list comprehension
`[active_agents[agent_name] for agent_name in agent_data["child_agents"]]` fails at the
first name not present. -/
def firstMissing (active : List String) : List String → Option String
  | [] => none
  | c :: rest => if c ∈ active then firstMissing active rest else some c

/-- Method `_create_orchestrators`: walk the registry in order; for each orchestrator
declaration, look every child agent up in `active_agents` (raising `KeyError` on the
first missing name) and record the built orchestrator. The built objects are modelled
by their names. -/
def createOrchestrators (reg : Registry) (active : List String) :
    Except BuildError (List String) :=
  match reg with
  | [] => .ok []
  | (name, a) :: rest =>
    if a.kind == .orchestrator then
      match firstMissing active a.childAgents with
      | some c => .error (.keyError c)
      | none =>
        match createOrchestrators rest active with
        | .error e => .error e
        | .ok built => .ok (name :: built)
    else createOrchestrators rest active

/-- Method `_create_evaluator_optimizers`: walk the registry in order; for each
evaluator-optimizer declaration, fetch optimizer and evaluator with
`active_agents.get(...)` and raise a `ValueError` naming the workflow and both
references when either is absent. -/
def createEvaluatorOptimizers (reg : Registry) (active : List String) :
    Except BuildError (List String) :=
  match reg with
  | [] => .ok []
  | (name, a) :: rest =>
    if a.kind == .evaluatorOptimizer then
      if a.optimizer ∈ active ∧ a.evaluator ∈ active then
        match createEvaluatorOptimizers rest active with
        | .error e => .error e
        | .ok built => .ok (name :: built)
      else .error (.valueError name a.optimizer a.evaluator)
    else createEvaluatorOptimizers rest active

/-! ## Lifecycle (app.py: the initialize , cleanup and run methods of MCPApp) -/

/-- Outcome of running a Python block: normal return, an exception, or
`asyncio.CancelledError`. -/
inductive PyOutcome where
  | ok
  | exn (msg : String)
  | cancelled
deriving DecidableEq, Repr

/-- State of an `MCPApp`: the `_initialized` flag and `_context`. Context identity is
tracked by a generation number (`initialize_context` constructs a new context object on
every call, modelled by the `nextGen` counter), so freshness across scopes is
observable. -/
structure AppState where
  initialized : Bool
  contextGen : Option Nat
  nextGen : Nat
deriving DecidableEq, Repr

/-- The initialize method of MCPApp (renamed here): a no-op when already initialized,
otherwise installs a fresh context and sets the flag. -/
def MCPApp.initializeApp (st : AppState) : AppState :=
  if st.initialized then st
  else { initialized := true, contextGen := some st.nextGen, nextGen := st.nextGen + 1 }

/-- Method `MCPApp.cleanup`, with the outcome of `await cleanup_context()` supplied as
a parameter. Returns the state afterwards, the outcome the method itself raises, and
how many times teardown ran. A no-op when not initialized. Only
`asyncio.CancelledError` is caught (and logged); any other exception propagates and
skips the two assignments that reset `_context` and `_initialized`. -/
def MCPApp.cleanup (st : AppState) (teardown : PyOutcome) : AppState × PyOutcome × Nat :=
  if st.initialized then
    match teardown with
    | .ok => ({ st with initialized := false, contextGen := none }, .ok, 1)
    | .cancelled => ({ st with initialized := false, contextGen := none }, .ok, 1)
    | .exn m => (st, .exn m, 1)
  else (st, .ok, 0)

/-- Context manager `MCPApp.run`: initialize, yield to the body, and run `cleanup` in a
`finally` block. The body outcome and the `cleanup_context` outcome are parameters.
Per Python `finally` semantics, an exception escaping `cleanup` replaces the body
outcome; otherwise the body outcome stands. Returns the final state, the outcome the
scope raises, and the number of teardown runs. -/
def MCPApp.run (st : AppState) (body teardown : PyOutcome) :
    AppState × PyOutcome × Nat :=
  let st1 := MCPApp.initializeApp st
  match MCPApp.cleanup st1 teardown with
  | (st2, .ok, n) => (st2, body, n)
  | (st2, e, n) => (st2, e, n)

/-! ## Task registration (`app.py`: `MCPApp.workflow_task`) -/

/-- The aspects of a Python function object that `workflow_task` inspects: its module,
qualified name, plain name, and whether `asyncio.iscoroutinefunction` holds. -/
structure PyFunc where
  module : String
  qualname : String
  funcName : String
  isCoroutine : Bool
deriving DecidableEq, Repr

/-- The metadata dict `workflow_task` registers: activity name, schedule-to-close
timeout (as minutes) and retry policy map. -/
structure TaskMetadata where
  activityName : String
  timeoutMinutes : Nat
  retryPolicy : List (String × String)
deriving DecidableEq, Repr

/-- Decorator `MCPApp.workflow_task`. Raises `TypeError` when the function is not a
coroutine function; otherwise registers the function in the activity registry under
`name or f"{module}.{qualname}"` with timeout `schedule_to_close_timeout or
timedelta(minutes=10)` and retry policy `retry_policy or {}`, and returns the function
itself. The successful result is the registration record: the metadata together with
the registered (and returned) function. Python truthiness applies to the defaults, so
an empty name or a zero timeout also falls back. -/
def workflow_task (name : Option String) (timeoutMinutes : Option Nat)
    (retryPolicy : Option (List (String × String))) (func : PyFunc) :
    Except String (TaskMetadata × PyFunc) :=
  if func.isCoroutine then
    let actualName :=
      match name with
      | some s => if s != "" then s else func.module ++ "." ++ func.qualname
      | none => func.module ++ "." ++ func.qualname
    let timeout :=
      match timeoutMinutes with
      | some d => if d != 0 then d else 10
      | none => 10
    let retry :=
      match retryPolicy with
      | some p => p
      | none => []
    .ok (⟨actualName, timeout, retry⟩, func)
  else .error ("Function " ++ func.funcName ++ " must be async.")

/-! ## Theorems: parameter resolution (C1, C4) -/

/-- C1: model parameter precedence. Resolving the effective model keeps the first
non-null (truthy) value scanning call site, then command line override, then file
config merged into the settings default, then the baseline default; in particular with
baseline `"haiku"`, file config model `"sonnet"`, no CLI override and call site
`"gpt-4o"` the resolved model is `"gpt-4o"`, and with the call site omitted it is
`"sonnet"`. -/
theorem claim_C1_model_precedence :
    (∀ fileConfig cli callSite, pyTruthy callSite = true →
      resolveNodeModel fileConfig cli callSite = callSite) ∧
    (∀ fileConfig cli callSite, pyTruthy callSite = false → pyTruthy cli = true →
      resolveNodeModel fileConfig cli callSite = cli) ∧
    (∀ fileConfig cli callSite, pyTruthy callSite = false → pyTruthy cli = false →
      resolveNodeModel fileConfig cli callSite = settingsDefaultModel fileConfig) ∧
    (∀ cli callSite, pyTruthy callSite = false → pyTruthy cli = false →
      resolveNodeModel none cli callSite = some "haiku") ∧
    resolveNodeModel (some (some "sonnet")) none (some "gpt-4o") = some "gpt-4o" ∧
    resolveNodeModel (some (some "sonnet")) none none = some "sonnet" := by
  refine ⟨?_, ?_, ?_, ?_, by decide, by decide⟩
  · intro f c s h
    simp [resolveNodeModel, modelSpecOf, h]
  · intro f c s h1 h2
    simp [resolveNodeModel, modelSpecOf, h1, h2]
  · intro f c s h1 h2
    simp [resolveNodeModel, modelSpecOf, h1, h2]
  · intro c s h1 h2
    simp [resolveNodeModel, modelSpecOf, settingsDefaultModel, h1, h2]

/-- Witness for C1 at the concrete scenario of the claim. -/
theorem claim_C1_model_precedence_witness :
    pyTruthy (some "gpt-4o") = true ∧
    resolveNodeModel (some (some "sonnet")) none (some "gpt-4o") = some "gpt-4o" :=
  ⟨by decide,
    claim_C1_model_precedence.1 (some (some "sonnet")) none (some "gpt-4o") (by decide)⟩

/-- C4: parameter resolution is a pure function of its inputs. The resolver returns
the mutable environment unchanged, its result is a function of the environment and the
call site inputs only, and resolutions for different nodes commute: running one
resolution first never changes the outcome of another. -/
theorem claim_C4_resolution_pure :
    (∀ env model rp, (getModelFactory env model rp).2 = env) ∧
    (∀ env model1 rp1 model2 rp2,
      (getModelFactory (getModelFactory env model1 rp1).2 model2 rp2).1 =
        (getModelFactory env model2 rp2).1 ∧
      (getModelFactory (getModelFactory env model2 rp2).2 model1 rp1).1 =
        (getModelFactory env model1 rp1).1 ∧
      (getModelFactory (getModelFactory env model1 rp1).2 model2 rp2).2 = env) := by
  exact ⟨fun env model rp => rfl, fun env m1 r1 m2 r2 => ⟨rfl, rfl, rfl⟩⟩

/-! ## Theorems: prompt loading (C9) -/

/-- C9: for every input file (every outcome of `load_prompt`), `load_prompt_multipart`
never returns normally: the class `PromptMessageMultipart` has no `flatten` attribute,
so the call raises `AttributeError` before anything else happens. -/
theorem claim_C9_always_attribute_error :
    ∀ loadResult, load_prompt_multipart loadResult = .error (.attributeError "flatten") := by
  intro r
  have h : "flatten" ∉ pmmClassAttrs := by decide
  simp [load_prompt_multipart, h]

/-! ## Theorems: task registration (C7) -/

/-- C7: `workflow_task` raises a type error exactly when the function is not a
coroutine function; on success it registers the function under its given (truthy) or
derived name, with a schedule-to-close timeout defaulting to 10 minutes, an empty
retry policy when none is given, and returns the function itself unchanged. -/
theorem claim_C7_workflow_task :
    ∀ name timeout retry func,
      ((∃ e, workflow_task name timeout retry func = .error e) ↔
        func.isCoroutine = false) ∧
      (func.isCoroutine = true →
        ∃ meta, workflow_task name timeout retry func = .ok (meta, func) ∧
          (name = none → meta.activityName = func.module ++ "." ++ func.qualname) ∧
          (∀ s, name = some s → s ≠ "" → meta.activityName = s) ∧
          (timeout = none → meta.timeoutMinutes = 10) ∧
          (∀ d, timeout = some d → d ≠ 0 → meta.timeoutMinutes = d) ∧
          (retry = none → meta.retryPolicy = []) ∧
          (∀ p, retry = some p → meta.retryPolicy = p)) := by
  intro name timeout retry func
  cases hc : func.isCoroutine with
  | false =>
    constructor
    · simp [workflow_task, hc]
    · intro h
      simp at h
  | true =>
    constructor
    · simp [workflow_task, hc]
    · intro _
      refine ⟨⟨(match name with
                | some s => if s != "" then s else func.module ++ "." ++ func.qualname
                | none => func.module ++ "." ++ func.qualname),
              (match timeout with
                | some d => if d != 0 then d else 10
                | none => 10),
              (match retry with
                | some p => p
                | none => [])⟩, ?_, ?_, ?_, ?_, ?_, ?_, ?_⟩
      · simp [workflow_task, hc]
      · intro h
        subst h
        rfl
      · intro s h hne
        subst h
        simp [hne]
      · intro h
        subst h
        rfl
      · intro d h hne
        subst h
        simp [hne]
      · intro h
        subst h
        rfl
      · intro p h
        subst h
        rfl

/-- Witness for C7: an async function registered with no explicit name, timeout or
retry policy. -/
theorem claim_C7_workflow_task_witness :
    ∃ meta, workflow_task none none none ⟨"mod", "fn", "fn", true⟩ =
        .ok (meta, ⟨"mod", "fn", "fn", true⟩) ∧
      meta.activityName = "mod.fn" ∧ meta.timeoutMinutes = 10 ∧
      meta.retryPolicy = [] := by
  obtain ⟨meta, hok, hname, _, htime, _, hretry, _⟩ :=
    (claim_C7_workflow_task none none none ⟨"mod", "fn", "fn", true⟩).2 rfl
  exact ⟨meta, hok, (hname rfl).trans (by decide), htime rfl, hretry rfl⟩

/-! ## Theorems: lifecycle (C6) -/

/-- C6 counterexample: the claim says any error raised during teardown is logged and
swallowed, never re-raised. But `MCPApp.cleanup` catches only
`asyncio.CancelledError`; a plain exception raised by `cleanup_context` escapes the
scope (here: body exits normally, teardown raises, and the scope raises the teardown
error instead of returning normally). -/
theorem claim_C6_counterexample :
    (MCPApp.run ⟨false, none, 0⟩ .ok (.exn "boom")).2.1 = .exn "boom" ∧
      PyOutcome.exn "boom" ≠ .ok := by
  exact ⟨rfl, by decide⟩

/-- C6 amended: teardown runs exactly once on scope exit whatever the body outcome; a
teardown cancellation is logged and swallowed (the scope then reports the body
outcome); any other teardown error propagates, replacing the body outcome; after a
non-raising teardown the state is deinitialized and re-entering installs a fresh
context generation distinct from the previous scope. -/
theorem claim_C6_amended :
    ∀ st body teardown, st.initialized = false →
      (MCPApp.run st body teardown).2.2 = 1 ∧
      (teardown = .ok ∨ teardown = .cancelled →
        (MCPApp.run st body teardown).2.1 = body ∧
        ((MCPApp.run st body teardown).1).initialized = false ∧
        ((MCPApp.run st body teardown).1).contextGen = none ∧
        (MCPApp.initializeApp ((MCPApp.run st body teardown).1)).contextGen =
          some (st.nextGen + 1) ∧
        (MCPApp.initializeApp st).contextGen = some st.nextGen ∧
        (some (st.nextGen + 1) : Option Nat) ≠ some st.nextGen) ∧
      (∀ m, teardown = .exn m → (MCPApp.run st body teardown).2.1 = .exn m) := by
  intro st body teardown h
  obtain ⟨i, g, k⟩ := st
  simp only at h
  subst h
  cases teardown <;>
    simp [MCPApp.run, MCPApp.initializeApp, MCPApp.cleanup]

/-- Witness for C6 amended: a fresh app whose body returns normally and whose teardown
is cancelled. -/
theorem claim_C6_amended_witness :
    (MCPApp.run ⟨false, none, 0⟩ .ok .cancelled).2.2 = 1 ∧
    (MCPApp.run ⟨false, none, 0⟩ .ok .cancelled).2.1 = .ok := by
  obtain ⟨h1, h2, _⟩ := claim_C6_amended ⟨false, none, 0⟩ .ok .cancelled rfl
  exact ⟨h1, (h2 (Or.inr rfl)).1⟩

/-! ## Theorems: composite builders (C5) -/

/-- First missing child found means its name is absent from `active` and belongs to
the child list. -/
theorem firstMissing_spec (active : List String) :
    ∀ l c, firstMissing active l = some c → c ∉ active ∧ c ∈ l := by
  intro l
  induction l with
  | nil => intro c h; cases h
  | cons x rest ih =>
    intro c h
    by_cases hx : x ∈ active
    · rw [firstMissing, if_pos hx] at h
      obtain ⟨h1, h2⟩ := ih c h
      exact ⟨h1, List.mem_cons_of_mem x h2⟩
    · rw [firstMissing, if_neg hx] at h
      cases h
      exact ⟨hx, List.mem_cons_self x rest⟩

/-- A missing child forces `firstMissing` to report some missing child. -/
theorem firstMissing_isSome (active : List String) :
    ∀ l c, c ∈ l → c ∉ active → ∃ c2, firstMissing active l = some c2 := by
  intro l
  induction l with
  | nil => intro c h; cases h
  | cons x rest ih =>
    intro c hc hna
    by_cases hx : x ∈ active
    · have hcx : c ≠ x := fun he => hna (he ▸ hx)
      have : c ∈ rest := by
        rcases List.mem_cons.mp hc with h | h
        · exact absurd h hcx
        · exact h
      obtain ⟨c2, h2⟩ := ih c this hna
      exact ⟨c2, by rw [firstMissing, if_pos hx]; exact h2⟩
    · exact ⟨x, by rw [firstMissing, if_neg hx]⟩

/-- C5 counterexample: the claim says every composite node with an unresolved
reference fails with a configuration error, not an unhandled crash. But an
orchestrator whose child list names an unbuilt agent fails with an uncaught
`KeyError` from the `active_agents[...]` subscript, not the configuration-style
`ValueError`. -/
theorem claim_C5_counterexample :
    createOrchestrators
        [("orch", { kind := .orchestrator, childAgents := ["ghost"] })] [] =
      .error (.keyError "ghost") ∧
    (BuildError.keyError "ghost").isValueError = false := by
  exact ⟨rfl, rfl⟩

/-- C5 amended: an evaluator-optimizer node whose optimizer or evaluator is absent
from the built set fails fast with the configuration `ValueError` naming the workflow
and both references; an orchestrator node with a missing child instead raises an
uncaught `KeyError` naming a missing child. -/
theorem claim_C5_amended :
    ∀ reg active,
      (∀ name a, (name, a) ∈ reg → a.kind = .evaluatorOptimizer →
        a.optimizer ∉ active ∨ a.evaluator ∉ active →
        ∃ n o e, createEvaluatorOptimizers reg active = .error (.valueError n o e) ∧
          (o ∉ active ∨ e ∉ active) ∧
          ∃ a2, (n, a2) ∈ reg ∧ a2.kind = .evaluatorOptimizer ∧
            a2.optimizer = o ∧ a2.evaluator = e) ∧
      (∀ name a c, (name, a) ∈ reg → a.kind = .orchestrator →
        c ∈ a.childAgents → c ∉ active →
        ∃ c2, createOrchestrators reg active = .error (.keyError c2) ∧ c2 ∉ active ∧
          ∃ n2 a2, (n2, a2) ∈ reg ∧ a2.kind = .orchestrator ∧ c2 ∈ a2.childAgents) := by
  intro reg active
  induction reg with
  | nil =>
    constructor
    · intro name a h
      cases h
    · intro name a c h
      cases h
  | cons hd rest ih =>
    obtain ⟨n0, a0⟩ := hd
    obtain ⟨ihEO, ihOrch⟩ := ih
    constructor
    · intro name a hmem hkind hmiss
      by_cases h0 : a0.kind = .evaluatorOptimizer
      · by_cases hpres : a0.optimizer ∈ active ∧ a0.evaluator ∈ active
        · have hne : (name, a) ∈ rest := by
            rcases List.mem_cons.mp hmem with he | he
            · exfalso
              have : a = a0 := congrArg Prod.snd he
              subst this
              rcases hmiss with hm | hm
              · exact hm hpres.1
              · exact hm hpres.2
            · exact he
          obtain ⟨n, o, e, hres, ho, a2, ha2, hk2, ho2, he2⟩ :=
            ihEO name a hne hkind hmiss
          refine ⟨n, o, e, ?_, ho, a2, List.mem_cons_of_mem _ ha2, hk2, ho2, he2⟩
          rw [createEvaluatorOptimizers, if_pos (by simp [h0]), if_pos hpres, hres]
        · refine ⟨n0, a0.optimizer, a0.evaluator, ?_, ?_,
            a0, List.mem_cons_self _ _, h0, rfl, rfl⟩
          · rw [createEvaluatorOptimizers, if_pos (by simp [h0]), if_neg hpres]
          · rcases Decidable.not_and_iff_or_not.mp hpres with hm | hm
            · exact Or.inl hm
            · exact Or.inr hm
      · have hne : (name, a) ∈ rest := by
          rcases List.mem_cons.mp hmem with he | he
          · exfalso
            have : a = a0 := congrArg Prod.snd he
            exact h0 (this ▸ hkind)
          · exact he
        obtain ⟨n, o, e, hres, ho, a2, ha2, hk2, ho2, he2⟩ :=
          ihEO name a hne hkind hmiss
        refine ⟨n, o, e, ?_, ho, a2, List.mem_cons_of_mem _ ha2, hk2, ho2, he2⟩
        rw [createEvaluatorOptimizers, if_neg (by simp [h0]), hres]
    · intro name a c hmem hkind hc hna
      by_cases h0 : a0.kind = .orchestrator
      · cases hfm : firstMissing active a0.childAgents with
        | some c2 =>
          obtain ⟨hna2, hc2⟩ := firstMissing_spec active a0.childAgents c2 hfm
          refine ⟨c2, ?_, hna2, n0, a0, List.mem_cons_self _ _, h0, hc2⟩
          rw [createOrchestrators, if_pos (by simp [h0]), hfm]
        | none =>
          have hne : (name, a) ∈ rest := by
            rcases List.mem_cons.mp hmem with he | he
            · exfalso
              have ha : a = a0 := congrArg Prod.snd he
              subst ha
              obtain ⟨c2, h2⟩ := firstMissing_isSome active a.childAgents c hc hna
              rw [hfm] at h2
              cases h2
            · exact he
          obtain ⟨c2, hres, hna2, n2, a2, ha2, hk2, hc2⟩ :=
            ihOrch name a c hne hkind hc hna
          refine ⟨c2, ?_, hna2, n2, a2, List.mem_cons_of_mem _ ha2, hk2, hc2⟩
          rw [createOrchestrators, if_pos (by simp [h0]), hfm]
          cases hrec : createOrchestrators rest active with
          | error e => rw [hrec] at hres; rw [hres]
          | ok l => rw [hrec] at hres; cases hres
      · have hne : (name, a) ∈ rest := by
          rcases List.mem_cons.mp hmem with he | he
          · exfalso
            have : a = a0 := congrArg Prod.snd he
            exact h0 (this ▸ hkind)
          · exact he
        obtain ⟨c2, hres, hna2, n2, a2, ha2, hk2, hc2⟩ :=
          ihOrch name a c hne hkind hc hna
        refine ⟨c2, ?_, hna2, n2, a2, List.mem_cons_of_mem _ ha2, hk2, hc2⟩
        rw [createOrchestrators, if_neg (by simp [h0]), hres]

/-- Witness for C5 amended: a registry with one orchestrator missing a child and one
evaluator-optimizer missing both references, built against an empty active set. -/
theorem claim_C5_amended_witness :
    (∃ n o e, createEvaluatorOptimizers
        [("orch", { kind := .orchestrator, childAgents := ["ghost"] }),
         ("eo", { kind := .evaluatorOptimizer, optimizer := "o1", evaluator := "e1" })]
        [] = .error (.valueError n o e)) ∧
    ∃ c2, createOrchestrators
        [("orch", { kind := .orchestrator, childAgents := ["ghost"] }),
         ("eo", { kind := .evaluatorOptimizer, optimizer := "o1", evaluator := "e1" })]
        [] = .error (.keyError c2) := by
  obtain ⟨hEO, hOrch⟩ := claim_C5_amended
    [("orch", { kind := .orchestrator, childAgents := ["ghost"] }),
     ("eo", { kind := .evaluatorOptimizer, optimizer := "o1", evaluator := "e1" })] []
  constructor
  · obtain ⟨n, o, e, hres, _⟩ :=
      hEO "eo" { kind := .evaluatorOptimizer, optimizer := "o1", evaluator := "e1" }
        (by simp) rfl (Or.inl (by simp))
    exact ⟨n, o, e, hres⟩
  · obtain ⟨c2, hres, _⟩ :=
      hOrch "orch" { kind := .orchestrator, childAgents := ["ghost"] } "ghost"
        (by simp) rfl (by simp) (by simp)
    exact ⟨c2, hres⟩

/-! ## Theorems: multipart round trip (C10) -/

theorem flattenMultipart_cons (m : PromptMessageMultipart)
    (ms : List PromptMessageMultipart) :
    flattenMultipart (m :: ms) = m.from_multipart ++ flattenMultipart ms := rfl

theorem flattenMultipart_append (l1 l2 : List PromptMessageMultipart) :
    flattenMultipart (l1 ++ l2) = flattenMultipart l1 ++ flattenMultipart l2 := by
  induction l1 with
  | nil => rfl
  | cons x xs ih =>
    rw [List.cons_append, flattenMultipart_cons, ih, flattenMultipart_cons,
      List.append_assoc]

theorem flattenMultipart_singleton (m : PromptMessageMultipart) :
    flattenMultipart [m] = m.from_multipart := by
  simp [flattenMultipart]

/-- Processing further messages from a state with a pending group only appends those
messages to the flattening of the finished state. -/
theorem toMultipart_fold_flatten :
    ∀ (msgs : List PromptMessage) (res : List PromptMessageMultipart)
      (g : PromptMessageMultipart),
      flattenMultipart
          (PromptMessageMultipart.finishGroups
            (msgs.foldl PromptMessageMultipart.toMultipartStep (res, some g))) =
        flattenMultipart (res ++ [g]) ++ msgs := by
  intro msgs
  induction msgs with
  | nil =>
    intro res g
    simp [PromptMessageMultipart.finishGroups]
  | cons m ms ih =>
    intro res g
    obtain ⟨mr, mc⟩ := m
    obtain ⟨gr, gc⟩ := g
    rw [List.foldl_cons]
    by_cases h : mr = gr
    · subst h
      have hstep : PromptMessageMultipart.toMultipartStep (res, some ⟨mr, gc⟩) ⟨mr, mc⟩ =
          (res, some ⟨mr, gc ++ [mc]⟩) := by
        simp [PromptMessageMultipart.toMultipartStep]
      rw [hstep, ih, flattenMultipart_append, flattenMultipart_append]
      simp [flattenMultipart, PromptMessageMultipart.from_multipart]
    · have hstep : PromptMessageMultipart.toMultipartStep (res, some ⟨gr, gc⟩) ⟨mr, mc⟩ =
          (res ++ [⟨gr, gc⟩], some ⟨mr, [mc]⟩) := by
        simp [PromptMessageMultipart.toMultipartStep, h]
      rw [hstep, ih, flattenMultipart_append, flattenMultipart_singleton]
      simp [PromptMessageMultipart.from_multipart]

/-- Processing further messages preserves the grouping shape: adjacent groups have
distinct roles and every group is nonempty. -/
theorem toMultipart_fold_shape :
    ∀ (msgs : List PromptMessage) (res : List PromptMessageMultipart)
      (g : PromptMessageMultipart),
      List.Chain' (fun x y => x.role ≠ y.role) (res ++ [g]) →
      (∀ x ∈ res ++ [g], x.content ≠ []) →
      List.Chain' (fun x y => x.role ≠ y.role)
          (PromptMessageMultipart.finishGroups
            (msgs.foldl PromptMessageMultipart.toMultipartStep (res, some g))) ∧
        ∀ x ∈ PromptMessageMultipart.finishGroups
            (msgs.foldl PromptMessageMultipart.toMultipartStep (res, some g)),
          x.content ≠ [] := by
  intro msgs
  induction msgs with
  | nil =>
    intro res g h1 h2
    exact ⟨h1, h2⟩
  | cons m ms ih =>
    intro res g h1 h2
    obtain ⟨mr, mc⟩ := m
    obtain ⟨gr, gc⟩ := g
    rw [List.foldl_cons]
    by_cases h : mr = gr
    · subst h
      have hstep : PromptMessageMultipart.toMultipartStep (res, some ⟨mr, gc⟩) ⟨mr, mc⟩ =
          (res, some ⟨mr, gc ++ [mc]⟩) := by
        simp [PromptMessageMultipart.toMultipartStep]
      rw [hstep]
      apply ih
      · rw [List.chain'_append] at h1 ⊢
        obtain ⟨ha, _, hl⟩ := h1
        refine ⟨ha, by simp, ?_⟩
        intro x hx y hy
        simp only [List.head?_cons, Option.mem_def, Option.some.injEq] at hy
        subst hy
        have := hl x hx ⟨mr, gc⟩ (by simp)
        simpa using this
      · intro x hx
        rcases List.mem_append.mp hx with hm | hm
        · exact h2 x (List.mem_append_left _ hm)
        · simp only [List.mem_singleton] at hm
          subst hm
          simp
    · have hstep : PromptMessageMultipart.toMultipartStep (res, some ⟨gr, gc⟩) ⟨mr, mc⟩ =
          (res ++ [⟨gr, gc⟩], some ⟨mr, [mc]⟩) := by
        simp [PromptMessageMultipart.toMultipartStep, h]
      rw [hstep]
      apply ih
      · rw [List.chain'_append]
        refine ⟨h1, by simp, ?_⟩
        intro x hx y hy
        simp only [List.head?_cons, Option.mem_def, Option.some.injEq] at hy
        subst hy
        rw [List.getLast?_concat] at hx
        simp only [Option.mem_def, Option.some.injEq] at hx
        subst hx
        simpa using fun hh => h hh.symm
      · intro x hx
        rcases List.mem_append.mp hx with hm | hm
        · exact h2 x hm
        · simp only [List.mem_singleton] at hm
          subst hm
          simp

/-- C10: round trip between message representations. `to_multipart` maps the empty
list to the empty list; concatenating `from_multipart` over its output recovers the
original message list element-wise; and the output consists of exactly the maximal
runs of consecutive equal-role messages (adjacent output groups have distinct roles
and every group is nonempty). -/
theorem claim_C10_roundtrip :
    PromptMessageMultipart.to_multipart ([] : List PromptMessage) = [] ∧
    ∀ msgs : List PromptMessage,
      flattenMultipart (PromptMessageMultipart.to_multipart msgs) = msgs ∧
      List.Chain' (fun x y => x.role ≠ y.role)
        (PromptMessageMultipart.to_multipart msgs) ∧
      ∀ m ∈ PromptMessageMultipart.to_multipart msgs, m.content ≠ [] := by
  refine ⟨rfl, ?_⟩
  intro msgs
  cases msgs with
  | nil => exact ⟨rfl, by simp [PromptMessageMultipart.to_multipart], by
      simp [PromptMessageMultipart.to_multipart]⟩
  | cons m ms =>
    have hstart : PromptMessageMultipart.to_multipart (m :: ms) =
        PromptMessageMultipart.finishGroups
          (ms.foldl PromptMessageMultipart.toMultipartStep
            ([], some ⟨m.role, [m.content]⟩)) := rfl
    have hshape := toMultipart_fold_shape ms [] ⟨m.role, [m.content]⟩
      (by simp) (by simp)
    refine ⟨?_, hstart ▸ hshape.1, hstart ▸ hshape.2⟩
    rw [hstart, toMultipart_fold_flatten]
    simp [flattenMultipart, PromptMessageMultipart.from_multipart]

/-- Witness for C10 on a concrete conversation: two user messages followed by one
assistant message collapse into two groups and flatten back to the original. -/
theorem claim_C10_roundtrip_witness :
    flattenMultipart (PromptMessageMultipart.to_multipart
        [⟨.user, .text "a"⟩, ⟨.user, .text "b"⟩, ⟨.assistant, .text "c"⟩]) =
      [⟨.user, .text "a"⟩, ⟨.user, .text "b"⟩, ⟨.assistant, .text "c"⟩] ∧
    (⟨.user, [.text "a", .text "b"]⟩ : PromptMessageMultipart).content ≠ [] := by
  refine ⟨(claim_C10_roundtrip.2 _).1, ?_⟩
  exact (claim_C10_roundtrip.2
      [⟨.user, .text "a"⟩, ⟨.user, .text "b"⟩, ⟨.assistant, .text "c"⟩]).2.2
    ⟨.user, [.text "a", .text "b"]⟩ (by decide)

/-! ## Theorems: dependency resolution (C2, C3, C8) -/

/-- Splitting a list that ends in a singleton: the distinguished element is either the
final one or lies inside the prefix. -/
theorem eq_append_singleton_cases {α : Type} {d0 : List α} {n0 : α} {l₁ : List α}
    {f : α} {l₂ : List α} (h : d0 ++ [n0] = l₁ ++ f :: l₂) :
    (l₁ = d0 ∧ f = n0 ∧ l₂ = []) ∨ ∃ l₃, l₂ = l₃ ++ [n0] ∧ d0 = l₁ ++ f :: l₃ := by
  rcases List.eq_nil_or_concat l₂ with hnil | ⟨l₃, a, rfl⟩
  · subst hnil
    have hlen : d0.length = l₁.length := by
      have := congrArg List.length h
      simp at this
      omega
    obtain ⟨h1, h2⟩ := List.append_inj h hlen
    simp at h2
    exact Or.inl ⟨h1.symm, h2.symm, rfl⟩
  · right
    have h2 : d0 ++ [n0] = (l₁ ++ f :: l₃) ++ [a] := by rw [h]; simp
    have hlen : d0.length = (l₁ ++ f :: l₃).length := by
      have := congrArg List.length h2
      simp [List.length_append] at this ⊢
      omega
    obtain ⟨h3, h4⟩ := List.append_inj h2 hlen
    simp at h4
    exact ⟨l₃, by rw [h4, List.concat_eq_append], h3⟩

/-- Topological soundness of an emitted chunk `d` relative to the visited set and
recursion path at the start of the emitting call: every emitted name is a parallel
declaration that was neither visited nor on the path, and each of its fan-out
references is off the path and either non-parallel, already visited, or emitted
earlier in the chunk. -/
def ChunkInv (reg : Registry) (vis path d : List String) : Prop :=
  ∀ l₁ f l₂, d = l₁ ++ f :: l₂ →
    isParallelName reg f = true ∧ f ∉ vis ∧ f ∉ path ∧
      ∀ t ∈ fanOutOf reg f, t ∉ path ∧
        (isParallelName reg t = false ∨ t ∈ vis ∨ t ∈ l₁)

theorem ChunkInv.mem_facts {reg : Registry} {vis path d : List String}
    (hC : ChunkInv reg vis path d) {x : String} (hx : x ∈ d) :
    isParallelName reg x = true ∧ x ∉ vis ∧ x ∉ path := by
  obtain ⟨s, t, rfl⟩ := List.append_of_mem hx
  obtain ⟨h1, h2, h3, _⟩ := hC s x t rfl
  exact ⟨h1, h2, h3⟩

/-- Invariant tying a successful traversal result to its inputs: the visited set grows
by exactly the emitted chunk, the chunk has no duplicates, and the chunk is
topologically sound. -/
def DepOk (reg : Registry) (vis path d v : List String) : Prop :=
  (∀ x, x ∈ v ↔ x ∈ d ∨ x ∈ vis) ∧ d.Nodup ∧ ChunkInv reg vis path d

theorem depOk_refl (reg : Registry) (vis path : List String) :
    DepOk reg vis path [] vis := by
  refine ⟨by simp, List.nodup_nil, ?_⟩
  intro l₁ f l₂ h
  simp at h

theorem chunkInv_append {reg : Registry} {vis path d1 v1 d2 : List String}
    (hv : ∀ x, x ∈ v1 ↔ x ∈ d1 ∨ x ∈ vis)
    (h1 : ChunkInv reg vis path d1) (h2 : ChunkInv reg v1 path d2) :
    ChunkInv reg vis path (d1 ++ d2) := by
  intro l₁ f l₂ heq
  rcases List.append_eq_append_iff.mp heq with ⟨a, ha1, ha2⟩ | ⟨c, hc1, hc2⟩
  · obtain ⟨hpar, hnv1, hnp, hfan⟩ := h2 a f l₂ ha2
    have hnvis : f ∉ vis := fun hm => hnv1 ((hv f).mpr (Or.inr hm))
    refine ⟨hpar, hnvis, hnp, ?_⟩
    intro t ht
    obtain ⟨htp, hcase⟩ := hfan t ht
    refine ⟨htp, ?_⟩
    rcases hcase with hx | hx | hx
    · exact Or.inl hx
    · rcases (hv t).mp hx with hd' | hd'
      · exact Or.inr (Or.inr (ha1 ▸ List.mem_append_left a hd'))
      · exact Or.inr (Or.inl hd')
    · exact Or.inr (Or.inr (ha1 ▸ List.mem_append_right d1 hx))
  · cases c with
    | nil =>
      simp at hc1 hc2
      obtain ⟨hpar, hnv1, hnp, hfan⟩ := h2 [] f l₂ hc2.symm
      refine ⟨hpar, fun hm => hnv1 ((hv f).mpr (Or.inr hm)), hnp, ?_⟩
      intro t ht
      obtain ⟨htp, hcase⟩ := hfan t ht
      refine ⟨htp, ?_⟩
      rcases hcase with hx | hx | hx
      · exact Or.inl hx
      · rcases (hv t).mp hx with hd' | hd'
        · exact Or.inr (Or.inr (hc1 ▸ hd'))
        · exact Or.inr (Or.inl hd')
      · simp at hx
    | cons f' c' =>
      injection hc2 with hf hl
      subst hf
      obtain ⟨hpar, hnvis, hnp, hfan⟩ := h1 l₁ f c' hc1
      refine ⟨hpar, hnvis, hnp, ?_⟩
      intro t ht
      exact hfan t ht

theorem depOk_append {reg : Registry} {vis path d1 v1 d2 v2 : List String}
    (h1 : DepOk reg vis path d1 v1) (h2 : DepOk reg v1 path d2 v2) :
    DepOk reg vis path (d1 ++ d2) v2 := by
  obtain ⟨hM1, hN1, hC1⟩ := h1
  obtain ⟨hM2, hN2, hC2⟩ := h2
  refine ⟨?_, ?_, chunkInv_append hM1 hC1 hC2⟩
  · intro x
    simp only [hM2 x, hM1 x, List.mem_append]
    tauto
  · refine List.Nodup.append hN1 hN2 ?_
    intro z hz1 hz2
    exact (hC2.mem_facts hz2).2.1 ((hM1 z).mpr (Or.inl hz1))

/-- A successful call never has its root on the recursion path. -/
theorem goOk_not_mem_path {reg : Registry} {fuel : Nat} {name : String}
    {vis path d v : List String}
    (h : getParallelDeps reg fuel name vis path = .ok (d, v)) : name ∉ path := by
  cases fuel with
  | zero => simp [getParallelDeps] at h
  | succ n =>
    intro hm
    simp [getParallelDeps, hm] at h

/-- A successful call leaves the root either non-parallel or inside the returned
visited set. -/
theorem goOk_parallel_or_emitted {reg : Registry} {fuel : Nat} {name : String}
    {vis path d v : List String}
    (h : getParallelDeps reg fuel name vis path = .ok (d, v)) :
    isParallelName reg name = false ∨ name ∈ v := by
  cases fuel with
  | zero => simp [getParallelDeps] at h
  | succ n =>
    by_cases h1 : name ∈ path
    · simp [getParallelDeps, h1] at h
    · by_cases h2 : name ∈ vis
      · simp [getParallelDeps, h1, h2] at h
        exact Or.inr (h.2 ▸ h2)
      · cases hl : lookupAgent reg name with
        | none => exact Or.inl (by simp [isParallelName, hl])
        | some a =>
          by_cases hk : a.kind = .parallel
          · cases hf : fanOutDeps reg n a.fanOut vis (name :: path) with
            | error e => simp [getParallelDeps, h1, h2, hl, hk, hf] at h
            | ok dv =>
              obtain ⟨deps, vis1⟩ := dv
              simp [getParallelDeps, h1, h2, hl, hk, hf] at h
              exact Or.inr (h.2 ▸ List.mem_cons_self _ _)
          · refine Or.inl ?_
            simp [isParallelName, hl]
            exact hk

/-- Main soundness induction: every successful traversal satisfies `DepOk`, and the
fan-out loop additionally leaves each processed reference either non-parallel or in
the final visited set, and off the path. -/
theorem deps_ok (reg : Registry) : ∀ fuel : Nat,
    (∀ name vis path d v, getParallelDeps reg fuel name vis path = .ok (d, v) →
      DepOk reg vis path d v) ∧
    (∀ fos vis path d v, fanOutDeps reg fuel fos vis path = .ok (d, v) →
      DepOk reg vis path d v ∧
        ∀ t ∈ fos, t ∉ path ∧ (isParallelName reg t = false ∨ t ∈ v)) := by
  intro fuel
  induction fuel with
  | zero =>
    constructor
    · intro name vis path d v h
      simp [getParallelDeps] at h
    · intro fos vis path d v h
      simp [fanOutDeps] at h
  | succ n ih =>
    obtain ⟨ihGo, ihList⟩ := ih
    constructor
    · intro name vis path d v h
      by_cases h1 : name ∈ path
      · simp [getParallelDeps, h1] at h
      · by_cases h2 : name ∈ vis
        · simp [getParallelDeps, h1, h2] at h
          obtain ⟨hd, hv⟩ := h
          subst hd
          subst hv
          exact depOk_refl reg vis path
        · cases hl : lookupAgent reg name with
          | none =>
            simp [getParallelDeps, h1, h2, hl] at h
            obtain ⟨hd, hv⟩ := h
            subst hd
            subst hv
            exact depOk_refl reg vis path
          | some a =>
            by_cases hk : a.kind = .parallel
            · cases hf : fanOutDeps reg n a.fanOut vis (name :: path) with
              | error e =>
                simp [getParallelDeps, h1, h2, hl, hk, hf] at h
              | ok dv =>
                obtain ⟨deps, vis1⟩ := dv
                simp [getParallelDeps, h1, h2, hl, hk, hf] at h
                obtain ⟨hd, hv⟩ := h
                subst hd
                subst hv
                obtain ⟨⟨hM, hN, hC⟩, hT⟩ := ihList a.fanOut vis (name :: path) deps vis1 hf
                refine ⟨?_, ?_, ?_⟩
                · intro x
                  simp only [List.mem_cons, List.mem_append, List.mem_singleton, hM x]
                  tauto
                · refine List.Nodup.append hN (List.nodup_singleton name) ?_
                  intro z hz1 hz2
                  simp at hz2
                  subst hz2
                  exact (hC.mem_facts hz1).2.2 (List.mem_cons_self _ _)
                · intro l₁ f l₂ heq
                  rcases eq_append_singleton_cases heq with ⟨hL, hF, _⟩ | ⟨l₃, _, hdeps⟩
                  · subst hF
                    subst hL
                    refine ⟨by simp [isParallelName, hl, hk], h2, h1, ?_⟩
                    intro t ht
                    have hfan : t ∈ a.fanOut := by
                      simpa [fanOutOf, hl, hk] using ht
                    obtain ⟨htp, hcase⟩ := hT t hfan
                    constructor
                    · intro hc
                      exact htp (List.mem_cons_of_mem _ hc)
                    · rcases hcase with hx | hx
                      · exact Or.inl hx
                      · rcases (hM t).mp hx with hd' | hd'
                        · exact Or.inr (Or.inr hd')
                        · exact Or.inr (Or.inl hd')
                  · obtain ⟨hpar, hnv, hnp, hfan⟩ := hC l₁ f l₃ hdeps
                    refine ⟨hpar, hnv, fun hc => hnp (List.mem_cons_of_mem _ hc), ?_⟩
                    intro t ht
                    obtain ⟨htp, hcase⟩ := hfan t ht
                    exact ⟨fun hc => htp (List.mem_cons_of_mem _ hc), hcase⟩
            · simp [getParallelDeps, h1, h2, hl, hk] at h
              obtain ⟨hd, hv⟩ := h
              subst hd
              subst hv
              exact depOk_refl reg vis path
    · intro fos vis path d v h
      cases fos with
      | nil =>
        simp [fanOutDeps] at h
        obtain ⟨hd, hv⟩ := h
        subst hd
        subst hv
        exact ⟨depOk_refl reg vis path, by simp⟩
      | cons fo rest =>
        cases hgo : getParallelDeps reg n fo vis path with
        | error e => simp [fanOutDeps, hgo] at h
        | ok dv1 =>
          obtain ⟨d1, v1⟩ := dv1
          cases hrest : fanOutDeps reg n rest v1 path with
          | error e => simp [fanOutDeps, hgo, hrest] at h
          | ok dv2 =>
            obtain ⟨d2, v2⟩ := dv2
            simp [fanOutDeps, hgo, hrest] at h
            obtain ⟨hd, hv⟩ := h
            subst hd
            subst hv
            have hok1 := ihGo fo vis path d1 v1 hgo
            obtain ⟨hok2, hT2⟩ := ihList rest v1 path d2 v2 hrest
            refine ⟨depOk_append hok1 hok2, ?_⟩
            intro t ht
            rcases List.mem_cons.mp ht with hteq | htm
            · subst hteq
              refine ⟨goOk_not_mem_path hgo, ?_⟩
              rcases goOk_parallel_or_emitted hgo with hx | hx
              · exact Or.inl hx
              · exact Or.inr ((hok2.1 t).mpr (Or.inr hx))
            · exact hT2 t htm

/-- The build loop of `_create_parallel_agents` also satisfies the soundness
invariant, and every requested parallel name ends up visited. -/
theorem loop_ok (reg : Registry) (fuel : Nat) :
    ∀ names vis d v, buildParallelLoop reg fuel names vis = .ok (d, v) →
      DepOk reg vis [] d v ∧ ∀ t ∈ names, isParallelName reg t = false ∨ t ∈ v := by
  intro names
  induction names with
  | nil =>
    intro vis d v h
    simp [buildParallelLoop] at h
    obtain ⟨hd, hv⟩ := h
    subst hd
    subst hv
    exact ⟨depOk_refl reg vis [], by simp⟩
  | cons nm rest ih =>
    intro vis d v h
    by_cases h1 : nm ∈ vis
    · simp only [buildParallelLoop, if_pos h1] at h
      obtain ⟨hok, hT⟩ := ih vis d v h
      refine ⟨hok, ?_⟩
      intro t ht
      rcases List.mem_cons.mp ht with hteq | htm
      · subst hteq
        exact Or.inr ((hok.1 t).mpr (Or.inr h1))
      · exact hT t htm
    · cases hgo : getParallelDeps reg fuel nm vis [] with
      | error e => simp [buildParallelLoop, h1, hgo] at h
      | ok dv1 =>
        obtain ⟨d1, v1⟩ := dv1
        cases hrest : buildParallelLoop reg fuel rest v1 with
        | error e => simp [buildParallelLoop, h1, hgo, hrest] at h
        | ok dv2 =>
          obtain ⟨d2, v2⟩ := dv2
          simp [buildParallelLoop, h1, hgo, hrest] at h
          obtain ⟨hd, hv⟩ := h
          subst hd
          subst hv
          have hok1 := (deps_ok reg fuel).1 nm vis [] d1 v1 hgo
          obtain ⟨hok2, hT2⟩ := ih v1 d2 v2 hrest
          refine ⟨depOk_append hok1 hok2, ?_⟩
          intro t ht
          rcases List.mem_cons.mp ht with hteq | htm
          · subst hteq
            rcases goOk_parallel_or_emitted hgo with hx | hx
            · exact Or.inl hx
            · exact Or.inr ((hok2.1 t).mpr (Or.inr hx))
          · exact hT2 t htm

/-- Position comparison: in a duplicate-free list split around `f`, anything in the
prefix sits at a strictly smaller index than `f`. -/
theorem indexOf_lt_of_split {l₁ : List String} {f t : String} {l₂ : List String}
    (hN : (l₁ ++ f :: l₂).Nodup) (ht : t ∈ l₁) :
    (l₁ ++ f :: l₂).indexOf t < (l₁ ++ f :: l₂).indexOf f := by
  induction l₁ with
  | nil => cases ht
  | cons x xs ih =>
    rw [List.cons_append] at hN ⊢
    have hN2 : (xs ++ f :: l₂).Nodup := hN.of_cons
    have hxnot : x ∉ xs ++ f :: l₂ := (List.nodup_cons.mp hN).1
    have hxf : x ≠ f := by
      intro he
      apply hxnot
      rw [he]
      exact List.mem_append_right xs (List.mem_cons_self f l₂)
    by_cases htx : t = x
    · subst htx
      rw [List.indexOf_cons_self]
      rw [List.indexOf_cons_ne _ hxf]
      exact Nat.succ_pos _
    · have htxs : t ∈ xs := by
        rcases List.mem_cons.mp ht with he | he
        · exact absurd he htx
        · exact he
      have hxt : x ≠ t := fun he => htx he.symm
      rw [List.indexOf_cons_ne _ hxt, List.indexOf_cons_ne _ hxf]
      exact Nat.succ_lt_succ (ih hN2 htxs)

/-- From the chunk invariant over fresh state: every parallel fan-out dependency of an
emitted node is emitted strictly earlier. -/
theorem chunkInv_topo {reg : Registry} {d : List String} (hN : d.Nodup)
    (hC : ChunkInv reg [] [] d) :
    ∀ f t, f ∈ d → t ∈ fanOutOf reg f → isParallelName reg t = true →
      t ∈ d ∧ d.indexOf t < d.indexOf f := by
  intro f t hf hfan hpar
  obtain ⟨l₁, l₂, rfl⟩ := List.append_of_mem hf
  obtain ⟨_, _, _, hfanAll⟩ := hC l₁ f l₂ rfl
  obtain ⟨_, hcase⟩ := hfanAll t hfan
  have ht1 : t ∈ l₁ := by
    rcases hcase with hx | hx | hx
    · simp [hpar] at hx
    · simp at hx
    · exact hx
  exact ⟨List.mem_append_left _ ht1, indexOf_lt_of_split hN ht1⟩

/-- C3: for every registry and requested root, a successfully returned build order is
a topological order: no node name appears twice, and every fan-out dependency that is
itself a parallel node appears in the sequence, strictly before its dependent. -/
theorem claim_C3_topological_order :
    ∀ reg root d v, orderFrom reg root = .ok (d, v) →
      d.Nodup ∧
      ∀ f t, f ∈ d → t ∈ fanOutOf reg f → isParallelName reg t = true →
        t ∈ d ∧ d.indexOf t < d.indexOf f := by
  intro reg root d v h
  obtain ⟨_, hN, hC⟩ := (deps_ok reg (registryFuel reg)).1 root [] [] d v h
  exact ⟨hN, chunkInv_topo hN hC⟩

/-- Witness for C3: an acyclic chain of two parallel nodes over a basic leaf resolves
to the order Q before P, with no duplicates. -/
theorem claim_C3_topological_order_witness :
    (["Q", "P"] : List String).Nodup ∧ "Q" ∈ (["Q", "P"] : List String) ∧
      (["Q", "P"] : List String).indexOf "Q" < (["Q", "P"] : List String).indexOf "P" := by
  obtain ⟨hN, htopo⟩ := claim_C3_topological_order
    [("P", { kind := .parallel, fanOut := ["Q", "B"] }),
     ("Q", { kind := .parallel, fanOut := ["B"] }),
     ("B", { kind := .basic })] "P" ["Q", "P"] ["P", "Q"] (by decide)
  obtain ⟨hmem, hlt⟩ := htopo "P" "Q" (by decide) (by decide) (by decide)
  exact ⟨hN, hmem, hlt⟩

/-- Count of parallel declaration names not yet on the recursion path: the quantity
that shrinks at every nesting level of the traversal. -/
def remainingPar (reg : Registry) (path : List String) : Nat :=
  (((reg.map Prod.fst).dedup).filter
    (fun n => isParallelName reg n && decide (n ∉ path))).length

theorem isPar_mem_dedup {reg : Registry} {name : String}
    (h : isParallelName reg name = true) : name ∈ (reg.map Prod.fst).dedup := by
  rw [List.mem_dedup]
  unfold isParallelName at h
  cases hl : lookupAgent reg name with
  | none => rw [hl] at h; cases h
  | some a =>
    unfold lookupAgent at hl
    cases hf : reg.find? (fun p => p.1 == name) with
    | none => rw [hf] at hl; cases hl
    | some pr =>
      have hmem := List.mem_of_find?_eq_some hf
      have hname : pr.1 = name := by simpa using List.find?_some hf
      exact hname ▸ List.mem_map_of_mem Prod.fst hmem

theorem filter_path_cons_length {reg : Registry} {name : String} {path : List String} :
    ∀ l : List String, l.Nodup → name ∈ l → isParallelName reg name = true →
      name ∉ path →
      (l.filter (fun n => isParallelName reg n && decide (n ∉ name :: path))).length + 1 =
      (l.filter (fun n => isParallelName reg n && decide (n ∉ path))).length := by
  intro l
  induction l with
  | nil => intro _ h; intro _ _; cases h
  | cons x xs ih =>
    intro hN hmem hpar hnp
    have hNxs : xs.Nodup := hN.of_cons
    have hxnot : x ∉ xs := (List.nodup_cons.mp hN).1
    by_cases hx : name = x
    · subst hx
      have c1 : (isParallelName reg name && decide (name ∉ name :: path)) = false := by
        simp
      have c2 : (isParallelName reg name && decide (name ∉ path)) = true := by
        simp [hpar, hnp]
      have heq : xs.filter (fun n => isParallelName reg n && decide (n ∉ name :: path)) =
          xs.filter (fun n => isParallelName reg n && decide (n ∉ path)) := by
        apply List.filter_congr
        intro z hz
        have hzx : z ≠ name := fun he => hxnot (he ▸ hz)
        simp [List.mem_cons, hzx]
      rw [List.filter_cons, List.filter_cons, c1, c2,
        if_neg Bool.false_ne_true, if_pos rfl, heq, List.length_cons]
    · have hmxs : name ∈ xs := by
        rcases List.mem_cons.mp hmem with he | he
        · exact absurd he hx
        · exact he
      have hxne : x ≠ name := fun he => hx he.symm
      have hcond : (isParallelName reg x && decide (x ∉ name :: path)) =
          (isParallelName reg x && decide (x ∉ path)) := by
        simp [List.mem_cons, hxne]
      rw [List.filter_cons, List.filter_cons, hcond]
      have hrec := ih hNxs hmxs hpar hnp
      cases hc : (isParallelName reg x && decide (x ∉ path)) with
      | true =>
        rw [if_pos rfl, if_pos rfl, List.length_cons, List.length_cons]
        omega
      | false =>
        rw [if_neg Bool.false_ne_true, if_neg Bool.false_ne_true]
        exact hrec

theorem remainingPar_cons {reg : Registry} {name : String} {path : List String}
    (hpar : isParallelName reg name = true) (hnp : name ∉ path) :
    remainingPar reg (name :: path) + 1 = remainingPar reg path :=
  filter_path_cons_length _ (List.nodup_dedup _) (isPar_mem_dedup hpar) hpar hnp

theorem remainingPar_le (reg : Registry) (path : List String) :
    remainingPar reg path ≤ reg.length := by
  unfold remainingPar
  calc (((reg.map Prod.fst).dedup).filter _).length
      ≤ ((reg.map Prod.fst).dedup).length := List.length_filter_le _ _
    _ ≤ (reg.map Prod.fst).length := (List.dedup_sublist _).length_le
    _ = reg.length := List.length_map _ _

theorem mem_le_maxFanLen {reg : Registry} {p : String × AgentData} (hp : p ∈ reg) :
    p.2.fanOut.length ≤ maxFanLen reg := by
  induction reg with
  | nil => cases hp
  | cons q rest ih =>
    have hfold : maxFanLen (q :: rest) = max q.2.fanOut.length (maxFanLen rest) := rfl
    rcases List.mem_cons.mp hp with he | he
    · rw [hfold, he]
      exact le_max_left _ _
    · rw [hfold]
      exact le_trans (ih he) (le_max_right _ _)

theorem fanLen_le_maxFanLen {reg : Registry} {name : String} {a : AgentData}
    (hl : lookupAgent reg name = some a) : a.fanOut.length ≤ maxFanLen reg := by
  unfold lookupAgent at hl
  cases hf : reg.find? (fun p => p.1 == name) with
  | none => rw [hf] at hl; cases hl
  | some pr =>
    rw [hf] at hl
    simp at hl
    have := mem_le_maxFanLen (List.mem_of_find?_eq_some hf)
    rw [hl] at this
    exact this

theorem fuel_step_bound {R L n flen : Nat} (h1 : (R + 1) * (L + 2) + 1 ≤ n + 1)
    (h2 : flen ≤ L) : R * (L + 2) + flen + 1 ≤ n := by
  have h3 : (R + 1) * (L + 2) = R * (L + 2) + (L + 2) := by ring
  rw [h3] at h1
  generalize R * (L + 2) = P at h1 ⊢
  omega

theorem fuel_list_bound {P n flen : Nat} (h1 : P + (flen + 1) + 1 ≤ n + 1) :
    P + 1 ≤ n ∧ P + flen + 1 ≤ n := by
  omega

/-- Fuel sufficiency: with fuel beyond `remainingPar path * (maxFanLen + 2)`, the
traversal never reports fuel exhaustion. -/
theorem no_noFuel (reg : Registry) : ∀ fuel : Nat,
    (∀ name vis path, remainingPar reg path * (maxFanLen reg + 2) + 1 ≤ fuel →
      getParallelDeps reg fuel name vis path ≠ .error .noFuel) ∧
    (∀ fos vis path, fos.length ≤ maxFanLen reg →
      remainingPar reg path * (maxFanLen reg + 2) + fos.length + 1 ≤ fuel →
      fanOutDeps reg fuel fos vis path ≠ .error .noFuel) := by
  intro fuel
  induction fuel with
  | zero =>
    constructor
    · intro name vis path hle
      exact absurd hle (by omega)
    · intro fos vis path _ hle
      exact absurd hle (by omega)
  | succ n ih =>
    obtain ⟨ihGo, ihList⟩ := ih
    constructor
    · intro name vis path hle
      by_cases h1 : name ∈ path
      · simp [getParallelDeps, h1]
      · by_cases h2 : name ∈ vis
        · simp [getParallelDeps, h1, h2]
        · cases hl : lookupAgent reg name with
          | none => simp [getParallelDeps, h1, h2, hl]
          | some a =>
            by_cases hk : a.kind = .parallel
            · have hpar : isParallelName reg name = true := by
                simp [isParallelName, hl, hk]
              have hrc := remainingPar_cons hpar h1
              have hfl : a.fanOut.length ≤ maxFanLen reg := fanLen_le_maxFanLen hl
              have hle2 : remainingPar reg (name :: path) * (maxFanLen reg + 2) +
                  a.fanOut.length + 1 ≤ n := by
                have hR : remainingPar reg path =
                    remainingPar reg (name :: path) + 1 := hrc.symm
                rw [hR] at hle
                exact fuel_step_bound hle hfl
              cases hf : fanOutDeps reg n a.fanOut vis (name :: path) with
              | error e =>
                have hne := ihList a.fanOut vis (name :: path) hfl hle2
                rw [hf] at hne
                have hEe : e ≠ .noFuel := fun hcon => hne (by rw [hcon])
                simp [getParallelDeps, h1, h2, hl, hk, hf]
                exact hEe
              | ok dv => simp [getParallelDeps, h1, h2, hl, hk, hf]
            · simp [getParallelDeps, h1, h2, hl, hk]
    · intro fos vis path hfl hle
      cases fos with
      | nil => simp [fanOutDeps]
      | cons fo rest =>
        simp only [List.length_cons] at hle hfl
        obtain ⟨hle1, hle2⟩ := fuel_list_bound hle
        have hfl2 : rest.length ≤ maxFanLen reg := le_trans (Nat.le_succ _) hfl
        cases hgo : getParallelDeps reg n fo vis path with
        | error e =>
          have hne := ihGo fo vis path hle1
          rw [hgo] at hne
          have hEe : e ≠ .noFuel := fun hcon => hne (by rw [hcon])
          simp [fanOutDeps, hgo]
          exact hEe
        | ok dv1 =>
          obtain ⟨d1, v1⟩ := dv1
          cases hrest : fanOutDeps reg n rest v1 path with
          | error e =>
            have hne := ihList rest v1 path hfl2 hle2
            rw [hrest] at hne
            have hEe : e ≠ .noFuel := fun hcon => hne (by rw [hcon])
            simp [fanOutDeps, hgo, hrest]
            exact hEe
          | ok dv2 =>
            obtain ⟨d2, v2⟩ := dv2
            simp [fanOutDeps, hgo, hrest]

/-- With the bound used by the build phase, the loop never reports fuel exhaustion. -/
theorem loop_no_noFuel (reg : Registry) :
    ∀ names vis, buildParallelLoop reg (registryFuel reg) names vis ≠ .error .noFuel := by
  intro names
  induction names with
  | nil => intro vis; simp [buildParallelLoop]
  | cons nm rest ih =>
    intro vis
    by_cases h1 : nm ∈ vis
    · simp only [buildParallelLoop, if_pos h1]
      exact ih vis
    · have hgoNF : getParallelDeps reg (registryFuel reg) nm vis [] ≠
          .error .noFuel := by
        apply (no_noFuel reg (registryFuel reg)).1
        have h2 := remainingPar_le reg []
        have h3 : remainingPar reg [] * (maxFanLen reg + 2) ≤
            (reg.length + 1) * (maxFanLen reg + 2) :=
          Nat.mul_le_mul_right _ (by omega)
        unfold registryFuel
        omega
      cases hgo : getParallelDeps reg (registryFuel reg) nm vis [] with
      | error e =>
        have hEe : e ≠ .noFuel := by
          intro hcon
          exact hgoNF (by rw [hgo, hcon])
        simp [buildParallelLoop, h1, hgo]
        exact hEe
      | ok dv =>
        obtain ⟨d1, v1⟩ := dv
        cases hrest : buildParallelLoop reg (registryFuel reg) rest v1 with
        | error e =>
          have hEe : e ≠ .noFuel := by
            intro hcon
            exact ih v1 (by rw [hrest, hcon])
          simp [buildParallelLoop, h1, hgo, hrest]
          exact hEe
        | ok dv2 =>
          obtain ⟨d2, v2⟩ := dv2
          simp [buildParallelLoop, h1, hgo, hrest]

/-- Invariant on the recursion path: it contains only parallel names and consecutive
entries are linked by fan-out references (each entry is a fan-out of the one below). -/
def PathLinked (reg : Registry) (path : List String) : Prop :=
  (∀ x ∈ path, isParallelName reg x = true) ∧
    List.Chain' (fun a b => a ∈ fanOutOf reg b) path

/-- The node currently entered is a fan-out reference of the top of the path. -/
def LinkTo (reg : Registry) (name : String) (path : List String) : Prop :=
  ∀ y ∈ path.head?, name ∈ fanOutOf reg y

/-- When the entered name is already on a linked path, the segment of the path above
it closes into a genuine fan-out cycle all of whose nodes the raised error carries. -/
theorem cycle_from_path {reg : Registry} {name : String} {path : List String}
    (hL : PathLinked reg path) (hT : LinkTo reg name path) (hmem : name ∈ path) :
    ∃ c rest, FanoutCycle reg c rest ∧ c ∈ name :: path ∧
      ∀ x ∈ rest, x ∈ name :: path := by
  obtain ⟨hall, hchain⟩ := hL
  obtain ⟨u, w, rfl⟩ := List.append_of_mem hmem
  refine ⟨name, u.reverse, ?_, List.mem_cons_self _ _, ?_⟩
  · refine ⟨hall name hmem, ?_, ?_⟩
    · intro z hz
      exact hall z (List.mem_append_left _ (List.mem_reverse.mp hz))
    · have hsplit : u ++ name :: w = (u ++ [name]) ++ w := by simp
      rw [hsplit] at hchain
      have hchain2 : List.Chain' (fun a b => a ∈ fanOutOf reg b) (u ++ [name]) :=
        (List.chain'_append.mp hchain).1
      have hrev : List.Chain' (fun a b => b ∈ fanOutOf reg a) (u ++ [name]).reverse := by
        rw [List.chain'_reverse]
        exact hchain2
      have hrevform : (u ++ [name]).reverse = name :: u.reverse := by simp
      rw [hrevform] at hrev
      have hlink : ∀ x ∈ (name :: u.reverse).getLast?, name ∈ fanOutOf reg x := by
        intro x hx
        rw [← hrevform, List.getLast?_reverse] at hx
        apply hT
        cases u with
        | nil => simpa using hx
        | cons y ys => simpa using hx
      have hfull : List.Chain' (fun a b => b ∈ fanOutOf reg a)
          ((name :: u.reverse) ++ [name]) := by
        rw [List.chain'_append]
        refine ⟨hrev, by simp, ?_⟩
        intro x hx y hy
        simp only [List.head?_cons, Option.mem_def, Option.some.injEq] at hy
        subst hy
        exact hlink x hx
      rw [List.cons_append] at hfull
      exact hfull
  · intro x hx
    exact List.mem_cons_of_mem _ (List.mem_append_left _ (List.mem_reverse.mp hx))

/-- Cycle-error payload soundness: a circular-dependency error raised during a
traversal whose path is linked carries all nodes of some fan-out cycle. -/
theorem cycle_payload (reg : Registry) : ∀ fuel : Nat,
    (∀ name vis path p n0,
      getParallelDeps reg fuel name vis path = .error (.cycle p n0) →
      PathLinked reg path → LinkTo reg name path →
      ∃ c rest, FanoutCycle reg c rest ∧ c ∈ n0 :: p ∧ ∀ x ∈ rest, x ∈ n0 :: p) ∧
    (∀ fos vis path p n0,
      fanOutDeps reg fuel fos vis path = .error (.cycle p n0) →
      PathLinked reg path → (∀ t ∈ fos, LinkTo reg t path) →
      ∃ c rest, FanoutCycle reg c rest ∧ c ∈ n0 :: p ∧ ∀ x ∈ rest, x ∈ n0 :: p) := by
  intro fuel
  induction fuel with
  | zero =>
    constructor
    · intro name vis path p n0 h
      simp [getParallelDeps] at h
    · intro fos vis path p n0 h
      simp [fanOutDeps] at h
  | succ n ih =>
    obtain ⟨ihGo, ihList⟩ := ih
    constructor
    · intro name vis path p n0 h hL hT
      by_cases h1 : name ∈ path
      · simp [getParallelDeps, h1] at h
        obtain ⟨hp, hn⟩ := h
        subst hp
        subst hn
        exact cycle_from_path hL hT h1
      · by_cases h2 : name ∈ vis
        · simp [getParallelDeps, h1, h2] at h
        · cases hl : lookupAgent reg name with
          | none => simp [getParallelDeps, h1, h2, hl] at h
          | some a =>
            by_cases hk : a.kind = .parallel
            · cases hf : fanOutDeps reg n a.fanOut vis (name :: path) with
              | error e =>
                simp [getParallelDeps, h1, h2, hl, hk, hf] at h
                subst h
                apply ihList a.fanOut vis (name :: path) p n0 hf
                · refine ⟨?_, ?_⟩
                  · intro x hx
                    rcases List.mem_cons.mp hx with he | he
                    · subst he
                      simp [isParallelName, hl, hk]
                    · exact hL.1 x he
                  · rw [List.chain'_cons']
                    exact ⟨hT, hL.2⟩
                · intro t ht y hy
                  simp only [List.head?_cons, Option.mem_def, Option.some.injEq] at hy
                  subst hy
                  simpa [fanOutOf, hl, hk] using ht
              | ok dv =>
                obtain ⟨deps, vis1⟩ := dv
                simp [getParallelDeps, h1, h2, hl, hk, hf] at h
            · simp [getParallelDeps, h1, h2, hl, hk] at h
    · intro fos vis path p n0 h hL hTs
      cases fos with
      | nil => simp [fanOutDeps] at h
      | cons fo rest =>
        cases hgo : getParallelDeps reg n fo vis path with
        | error e =>
          simp [fanOutDeps, hgo] at h
          subst h
          exact ihGo fo vis path p n0 hgo hL (hTs fo (List.mem_cons_self _ _))
        | ok dv1 =>
          obtain ⟨d1, v1⟩ := dv1
          cases hrest : fanOutDeps reg n rest v1 path with
          | error e =>
            simp [fanOutDeps, hgo, hrest] at h
            subst h
            exact ihList rest v1 path p n0 hrest hL
              (fun t ht => hTs t (List.mem_cons_of_mem _ ht))
          | ok dv2 =>
            obtain ⟨d2, v2⟩ := dv2
            simp [fanOutDeps, hgo, hrest] at h

/-- The build loop starts every root with an empty path, so its cycle errors carry a
genuine fan-out cycle as well. -/
theorem loop_cycle_payload (reg : Registry) (fuel : Nat) :
    ∀ names vis p n0,
      buildParallelLoop reg fuel names vis = .error (.cycle p n0) →
      ∃ c rest, FanoutCycle reg c rest ∧ c ∈ n0 :: p ∧ ∀ x ∈ rest, x ∈ n0 :: p := by
  intro names
  induction names with
  | nil =>
    intro vis p n0 h
    simp [buildParallelLoop] at h
  | cons nm rest ih =>
    intro vis p n0 h
    by_cases h1 : nm ∈ vis
    · simp only [buildParallelLoop, if_pos h1] at h
      exact ih vis p n0 h
    · cases hgo : getParallelDeps reg fuel nm vis [] with
      | error e =>
        simp [buildParallelLoop, h1, hgo] at h
        subst h
        refine (cycle_payload reg fuel).1 nm vis [] p n0 hgo ⟨by simp, by simp⟩ ?_
        intro y hy
        simp at hy
      | ok dv =>
        obtain ⟨d1, v1⟩ := dv
        cases hrest : buildParallelLoop reg fuel rest v1 with
        | error e =>
          simp [buildParallelLoop, h1, hgo, hrest] at h
          subst h
          exact ih v1 p n0 hrest
        | ok dv2 =>
          obtain ⟨d2, v2⟩ := dv2
          simp [buildParallelLoop, h1, hgo, hrest] at h

theorem isPar_mem_parallelNames {reg : Registry} {name : String}
    (h : isParallelName reg name = true) : name ∈ parallelNamesOf reg := by
  unfold isParallelName at h
  cases hl : lookupAgent reg name with
  | none => rw [hl] at h; cases h
  | some a =>
    rw [hl] at h
    unfold lookupAgent at hl
    cases hf : reg.find? (fun p => p.1 == name) with
    | none => rw [hf] at hl; cases hl
    | some pr =>
      rw [hf] at hl
      simp at hl
      have hmem := List.mem_of_find?_eq_some hf
      have hname : pr.1 = name := by simpa using List.find?_some hf
      unfold parallelNamesOf
      refine List.mem_map.mpr ⟨pr, ?_, hname⟩
      refine List.mem_filter.mpr ⟨hmem, ?_⟩
      rw [hl]
      exact h

/-- A fan-out cycle makes a successful build order impossible: every cycle node would
appear in the order, and the topological property would force a strictly decreasing
cycle of positions. -/
theorem cycle_no_ok {reg : Registry} {c : String} {rest : List String}
    (hcyc : FanoutCycle reg c rest) :
    ∀ d, createParallelOrder reg ≠ .ok d := by
  intro d hok
  unfold createParallelOrder at hok
  cases hb : buildParallelLoop reg (registryFuel reg) (parallelNamesOf reg) [] with
  | error e => rw [hb] at hok; cases hok
  | ok dv =>
    obtain ⟨d0, v0⟩ := dv
    rw [hb] at hok
    obtain ⟨⟨hM, hN, hC⟩, hcov⟩ :=
      loop_ok reg (registryFuel reg) (parallelNamesOf reg) [] d0 v0 hb
    have hmemd : ∀ x, isParallelName reg x = true → x ∈ d0 := by
      intro x hx
      rcases hcov x (isPar_mem_parallelNames hx) with hfalse | hv
      · rw [hx] at hfalse; cases hfalse
      · rcases (hM x).mp hv with hd' | hd'
        · exact hd'
        · simp at hd'
    have htopo := chunkInv_topo hN hC
    obtain ⟨hpc, hpr, hchain⟩ := hcyc
    have aux : ∀ l a, isParallelName reg a = true →
        (∀ z ∈ l, isParallelName reg z = true) →
        List.Chain (fun x y => y ∈ fanOutOf reg x) a l →
        ∀ z ∈ l.getLast?, d0.indexOf z < d0.indexOf a := by
      intro l
      induction l with
      | nil =>
        intro a _ _ _ z hz
        simp at hz
      | cons b t ihl =>
        intro a ha hall hch z hz
        rw [List.chain_cons] at hch
        obtain ⟨hab, hbt⟩ := hch
        have hb2 : isParallelName reg b = true := hall b (List.mem_cons_self _ _)
        have h1 : d0.indexOf b < d0.indexOf a := (htopo a b (hmemd a ha) hab hb2).2
        cases t with
        | nil =>
          simp at hz
          subst hz
          exact h1
        | cons b2 t2 =>
          rw [List.getLast?_cons_cons] at hz
          exact lt_trans
            (ihl b hb2 (fun y hy => hall y (List.mem_cons_of_mem _ hy)) hbt z hz) h1
    have hall : ∀ z ∈ rest ++ [c], isParallelName reg z = true := by
      intro z hz
      rcases List.mem_append.mp hz with hz2 | hz2
      · exact hpr z hz2
      · simp at hz2
        subst hz2
        exact hpc
    have hfin := aux (rest ++ [c]) c hpc hall hchain c
      (by rw [Option.mem_def, List.getLast?_concat])
    exact lt_irrefl _ hfin

/-- C2: whenever the registry contains a fan-out cycle, the dependency-order
computation of the build phase fails with a circular-dependency error whose carried
names cover a full fan-out cycle; in particular, for parallel node X with fan-out [Y]
and parallel node Y with fan-out [X], ordering from root X fails with a cycle path
containing both X and Y. -/
theorem claim_C2_cycle_detection :
    (∀ reg c rest, FanoutCycle reg c rest →
      ∃ p n0, createParallelOrder reg = .error (.cycle p n0) ∧
        ∃ c2 rest2, FanoutCycle reg c2 rest2 ∧ c2 ∈ n0 :: p ∧
          ∀ x ∈ rest2, x ∈ n0 :: p) ∧
    (orderFrom
        [("X", { kind := .parallel, fanOut := ["Y"], fanIn := "fi" }),
         ("Y", { kind := .parallel, fanOut := ["X"], fanIn := "fi" })] "X" =
      .error (.cycle ["Y", "X"] "X") ∧
      "X" ∈ ("X" :: ["Y", "X"]) ∧ "Y" ∈ ("X" :: ["Y", "X"])) := by
  constructor
  · intro reg c rest hcyc
    cases hres : createParallelOrder reg with
    | ok d => exact absurd hres (cycle_no_ok ⟨hcyc.1, hcyc.2.1, hcyc.2.2⟩ d)
    | error e =>
      cases e with
      | noFuel =>
        exfalso
        unfold createParallelOrder at hres
        cases hb : buildParallelLoop reg (registryFuel reg) (parallelNamesOf reg) [] with
        | error e2 =>
          rw [hb] at hres
          injection hres with he
          exact loop_no_noFuel reg (parallelNamesOf reg) [] (by rw [hb, he])
        | ok dv => rw [hb] at hres; cases hres
      | cycle p n0 =>
        refine ⟨p, n0, rfl, ?_⟩
        unfold createParallelOrder at hres
        cases hb : buildParallelLoop reg (registryFuel reg) (parallelNamesOf reg) [] with
        | error e2 =>
          rw [hb] at hres
          injection hres with he
          subst he
          exact loop_cycle_payload reg (registryFuel reg) (parallelNamesOf reg) [] p n0 hb
        | ok dv => rw [hb] at hres; cases hres
  · exact ⟨by decide, by decide, by decide⟩

/-- Witness for C2: the X/Y two-cycle makes the full build-phase ordering fail with a
circular-dependency error carrying a fan-out cycle. -/
theorem claim_C2_cycle_detection_witness :
    ∃ p n0, createParallelOrder
        [("X", { kind := .parallel, fanOut := ["Y"], fanIn := "fi" }),
         ("Y", { kind := .parallel, fanOut := ["X"], fanIn := "fi" })] =
      .error (.cycle p n0) ∧
        ∃ c2 rest2,
          FanoutCycle
            [("X", { kind := .parallel, fanOut := ["Y"], fanIn := "fi" }),
             ("Y", { kind := .parallel, fanOut := ["X"], fanIn := "fi" })] c2 rest2 ∧
          c2 ∈ n0 :: p ∧ ∀ x ∈ rest2, x ∈ n0 :: p := by
  apply claim_C2_cycle_detection.1 _ "X" ["Y"]
  refine ⟨by decide, by decide, ?_⟩
  refine List.Chain.cons (by decide) (List.Chain.cons (by decide) List.Chain.nil)

/-! ## Theorems: determinism of dependency resolution (C8) -/

/-- Two lists represent the same set. Python keeps `visited` and `path` as hash sets;
the traversal consults them only through membership, so any two representations with
equal membership are interchangeable. -/
def VisEquiv (v1 v2 : List String) : Prop := ∀ x, x ∈ v1 ↔ x ∈ v2

/-- Relation between the results of two traversals run over set representations with
equal membership: identical emitted sequences with membership-equal visited sets, or
the same failure with membership-equal carried path sets. -/
def DepResultRel :
    Except DepError (List String × List String) →
    Except DepError (List String × List String) → Prop
  | .ok (d1, v1), .ok (d2, v2) => d1 = d2 ∧ VisEquiv v1 v2
  | .error (.cycle p1 n1), .error (.cycle p2 n2) => n1 = n2 ∧ VisEquiv p1 p2
  | .error .noFuel, .error .noFuel => True
  | _, _ => False

/-- The traversal depends on `visited` and `path` only through membership: running it
on membership-equal set representations produces the same emitted sequence. -/
theorem go_set_invariance (reg : Registry) : ∀ fuel : Nat,
    (∀ name vis1 path1 vis2 path2, VisEquiv vis1 vis2 → VisEquiv path1 path2 →
      DepResultRel (getParallelDeps reg fuel name vis1 path1)
        (getParallelDeps reg fuel name vis2 path2)) ∧
    (∀ fos vis1 path1 vis2 path2, VisEquiv vis1 vis2 → VisEquiv path1 path2 →
      DepResultRel (fanOutDeps reg fuel fos vis1 path1)
        (fanOutDeps reg fuel fos vis2 path2)) := by
  intro fuel
  induction fuel with
  | zero =>
    constructor
    · intro name vis1 path1 vis2 path2 _ _
      exact trivial
    · intro fos vis1 path1 vis2 path2 _ _
      exact trivial
  | succ n ih =>
    obtain ⟨ihGo, ihList⟩ := ih
    constructor
    · intro name vis1 path1 vis2 path2 hv hp
      by_cases h1 : name ∈ path1
      · have h1b : name ∈ path2 := (hp name).mp h1
        have e1 : getParallelDeps reg (n + 1) name vis1 path1 =
            .error (.cycle path1 name) := by simp [getParallelDeps, h1]
        have e2 : getParallelDeps reg (n + 1) name vis2 path2 =
            .error (.cycle path2 name) := by simp [getParallelDeps, h1b]
        rw [e1, e2]
        exact ⟨rfl, hp⟩
      · have h1b : name ∉ path2 := fun hm => h1 ((hp name).mpr hm)
        by_cases h2 : name ∈ vis1
        · have h2b : name ∈ vis2 := (hv name).mp h2
          have e1 : getParallelDeps reg (n + 1) name vis1 path1 = .ok ([], vis1) := by
            simp [getParallelDeps, h1, h2]
          have e2 : getParallelDeps reg (n + 1) name vis2 path2 = .ok ([], vis2) := by
            simp [getParallelDeps, h1b, h2b]
          rw [e1, e2]
          exact ⟨rfl, hv⟩
        · have h2b : name ∉ vis2 := fun hm => h2 ((hv name).mpr hm)
          cases hl : lookupAgent reg name with
          | none =>
            have e1 : getParallelDeps reg (n + 1) name vis1 path1 = .ok ([], vis1) := by
              simp [getParallelDeps, h1, h2, hl]
            have e2 : getParallelDeps reg (n + 1) name vis2 path2 = .ok ([], vis2) := by
              simp [getParallelDeps, h1b, h2b, hl]
            rw [e1, e2]
            exact ⟨rfl, hv⟩
          | some a =>
            by_cases hk : a.kind = .parallel
            · have hpcons : VisEquiv (name :: path1) (name :: path2) := by
                intro x
                simp [List.mem_cons, hp x]
              have hrel := ihList a.fanOut vis1 (name :: path1) vis2 (name :: path2)
                hv hpcons
              cases hf1 : fanOutDeps reg n a.fanOut vis1 (name :: path1) with
              | error err1 =>
                cases hf2 : fanOutDeps reg n a.fanOut vis2 (name :: path2) with
                | error err2 =>
                  rw [hf1, hf2] at hrel
                  have e1 : getParallelDeps reg (n + 1) name vis1 path1 =
                      .error err1 := by simp [getParallelDeps, h1, h2, hl, hk, hf1]
                  have e2 : getParallelDeps reg (n + 1) name vis2 path2 =
                      .error err2 := by simp [getParallelDeps, h1b, h2b, hl, hk, hf2]
                  rw [e1, e2]
                  exact hrel
                | ok dv2 =>
                  obtain ⟨d2, v2⟩ := dv2
                  rw [hf1, hf2] at hrel
                  cases err1 <;> exact hrel.elim
              | ok dv1 =>
                obtain ⟨d1, v1⟩ := dv1
                cases hf2 : fanOutDeps reg n a.fanOut vis2 (name :: path2) with
                | error err2 =>
                  rw [hf1, hf2] at hrel
                  cases err2 <;> exact hrel.elim
                | ok dv2 =>
                  obtain ⟨d2, v2⟩ := dv2
                  rw [hf1, hf2] at hrel
                  obtain ⟨hde, hve⟩ := hrel
                  subst hde
                  have e1 : getParallelDeps reg (n + 1) name vis1 path1 =
                      .ok (d1 ++ [name], name :: v1) := by
                    simp [getParallelDeps, h1, h2, hl, hk, hf1]
                  have e2 : getParallelDeps reg (n + 1) name vis2 path2 =
                      .ok (d1 ++ [name], name :: v2) := by
                    simp [getParallelDeps, h1b, h2b, hl, hk, hf2]
                  rw [e1, e2]
                  refine ⟨rfl, ?_⟩
                  intro x
                  simp [List.mem_cons, hve x]
            · have e1 : getParallelDeps reg (n + 1) name vis1 path1 = .ok ([], vis1) := by
                simp [getParallelDeps, h1, h2, hl, hk]
              have e2 : getParallelDeps reg (n + 1) name vis2 path2 = .ok ([], vis2) := by
                simp [getParallelDeps, h1b, h2b, hl, hk]
              rw [e1, e2]
              exact ⟨rfl, hv⟩
    · intro fos vis1 path1 vis2 path2 hv hp
      cases fos with
      | nil =>
        have e1 : fanOutDeps reg (n + 1) [] vis1 path1 = .ok ([], vis1) := by
          simp [fanOutDeps]
        have e2 : fanOutDeps reg (n + 1) [] vis2 path2 = .ok ([], vis2) := by
          simp [fanOutDeps]
        rw [e1, e2]
        exact ⟨rfl, hv⟩
      | cons fo rest =>
        have hrel1 := ihGo fo vis1 path1 vis2 path2 hv hp
        cases hg1 : getParallelDeps reg n fo vis1 path1 with
        | error err1 =>
          cases hg2 : getParallelDeps reg n fo vis2 path2 with
          | error err2 =>
            rw [hg1, hg2] at hrel1
            have e1 : fanOutDeps reg (n + 1) (fo :: rest) vis1 path1 = .error err1 := by
              simp [fanOutDeps, hg1]
            have e2 : fanOutDeps reg (n + 1) (fo :: rest) vis2 path2 = .error err2 := by
              simp [fanOutDeps, hg2]
            rw [e1, e2]
            exact hrel1
          | ok dv2 =>
            obtain ⟨d2, v2⟩ := dv2
            rw [hg1, hg2] at hrel1
            cases err1 <;> exact hrel1.elim
        | ok dv1 =>
          obtain ⟨d1, v1⟩ := dv1
          cases hg2 : getParallelDeps reg n fo vis2 path2 with
          | error err2 =>
            rw [hg1, hg2] at hrel1
            cases err2 <;> exact hrel1.elim
          | ok dv2 =>
            obtain ⟨d2, v2⟩ := dv2
            rw [hg1, hg2] at hrel1
            obtain ⟨hde, hve⟩ := hrel1
            subst hde
            have hrel2 := ihList rest v1 path1 v2 path2 hve hp
            cases hr1 : fanOutDeps reg n rest v1 path1 with
            | error err1 =>
              cases hr2 : fanOutDeps reg n rest v2 path2 with
              | error err2 =>
                rw [hr1, hr2] at hrel2
                have e1 : fanOutDeps reg (n + 1) (fo :: rest) vis1 path1 =
                    .error err1 := by simp [fanOutDeps, hg1, hr1]
                have e2 : fanOutDeps reg (n + 1) (fo :: rest) vis2 path2 =
                    .error err2 := by simp [fanOutDeps, hg2, hr2]
                rw [e1, e2]
                exact hrel2
              | ok dw2 =>
                obtain ⟨dd2, vv2⟩ := dw2
                rw [hr1, hr2] at hrel2
                cases err1 <;> exact hrel2.elim
            | ok dw1 =>
              obtain ⟨dd1, vv1⟩ := dw1
              cases hr2 : fanOutDeps reg n rest v2 path2 with
              | error err2 =>
                rw [hr1, hr2] at hrel2
                cases err2 <;> exact hrel2.elim
              | ok dw2 =>
                obtain ⟨dd2, vv2⟩ := dw2
                rw [hr1, hr2] at hrel2
                obtain ⟨hde2, hve2⟩ := hrel2
                subst hde2
                have e1 : fanOutDeps reg (n + 1) (fo :: rest) vis1 path1 =
                    .ok (d1 ++ dd1, vv1) := by simp [fanOutDeps, hg1, hr1]
                have e2 : fanOutDeps reg (n + 1) (fo :: rest) vis2 path2 =
                    .ok (d1 ++ dd1, vv2) := by simp [fanOutDeps, hg2, hr2]
                rw [e1, e2]
                exact ⟨rfl, hve2⟩

/-- C8: the dependency-order computation is deterministic and idempotent. The
traversal consults its `visited` and `path` sets only through membership, so the
emitted sequence is independent of the iteration or insertion order of those sets
(the hash order of names); and two invocations of the build-phase ordering on an
unchanged registry, each from fresh traversal state, are identical. -/
theorem claim_C8_deterministic :
    (∀ reg fuel name vis1 path1 vis2 path2, VisEquiv vis1 vis2 → VisEquiv path1 path2 →
      DepResultRel (getParallelDeps reg fuel name vis1 path1)
        (getParallelDeps reg fuel name vis2 path2)) ∧
    ∀ reg, createParallelOrder reg = createParallelOrder reg :=
  ⟨fun reg fuel => (go_set_invariance reg fuel).1, fun _ => rfl⟩

/-- Witness for C8: the same traversal run with two differently ordered (and
differently duplicated) representations of the same visited set relate. -/
theorem claim_C8_deterministic_witness :
    DepResultRel
      (getParallelDeps [("X", { kind := .parallel, fanOut := ["Y"] })] 5 "X"
        ["A", "B"] [])
      (getParallelDeps [("X", { kind := .parallel, fanOut := ["Y"] })] 5 "X"
        ["B", "A", "A"] []) := by
  refine claim_C8_deterministic.1 _ 5 "X" ["A", "B"] [] ["B", "A", "A"] [] ?_ ?_
  · intro x
    constructor
    · intro hx
      rcases List.mem_cons.mp hx with h | h
      · simp [h]
      · simp at h
        simp [h]
    · intro hx
      rcases List.mem_cons.mp hx with h | h
      · simp [h]
      · simp at hx
        rcases hx with h2 | h2 <;> simp [h2]
  · intro x
    simp

end FastAgent
